import Mathlib

/-!
Verification of the acsuite audio-trimming core (src/acsuite/__init__.py).

The development shallowly embeds the core of the library:

* `negative_to_positive_single` / `negative_to_positive_batch` model the two
  branches of `_negative_to_positive` (index normalization);
* `check_ordered` models `_check_ordered` (range validation);
* `f2ts` models the frame-to-timestamp translator, with Python's machine
  floats modelled as exact rationals and Python's `round` (banker's
  rounding, round-half-to-even) modelled by `pyRound`;
* `tcStep` / `clip_to_timecodes` model the body of `clip_to_timecodes`
  (the timecode-table builder), including the `deque(maxlen=...)` append
  semantics and the progress-print accounting;
* `lruCall` / `buildCountAux` model the `functools.lru_cache` decorator on
  `clip_to_timecodes` (default `maxsize=128`, least-recently-used eviction);
* `eztrim` models the trims-argument validation and dispatch of the public
  entry point, up to the debug-mode result (the subsequent subprocess
  invocation is external orchestration).

Python integers are modelled as `Int`, frame counts as `Nat`, `Fraction`
values as `Rat`, and raised exceptions as the `Except` monad with the
distinct raise sites enumerated by `PyErr`.
-/

namespace Acsuite

/-- Distinct raise sites of the embedded core.  Each constructor corresponds
to one `raise` statement (or unavoidable runtime error) in the source. -/
inductive PyErr
  /-- `ValueError(f"_negative_to_positive: {n} is out of bounds")`, single-trim branch. -/
  | outOfRange (n : ℕ)
  /-- `ValueError("_negative_to_positive: one or more trims are out of bounds")`, batch branch. -/
  | outOfRangeBatch
  /-- `ValueError("_negative_to_positive: lists must be same length")`. -/
  | lengthMismatch
  /-- `ValueError(f"f2ts: the precision {p} must be a multiple of 3 (including 0)")`. -/
  | invalidPrecision (p : ℤ)
  /-- Python `IndexError` from indexing a timecode list out of range. -/
  | indexError
  /-- `TypeError("eztrim: trims must be a list of 2-tuples (or just one 2-tuple)")`. -/
  | trimsNotListOrTuple
  /-- `ValueError("eztrim: the inner trim must be a tuple")`. -/
  | innerNotTuple
  /-- `TypeError(f"eztrim: the trim {trim} is not a tuple")`. -/
  | trimNotTuple
  /-- `ValueError(f"eztrim: the trim {trim} needs 2 elements")`. -/
  | trimWrongArity
  /-- `ValueError("eztrim: a single tuple trim must have 2 elements")`. -/
  | singleWrongArity
  /-- `ValueError(f"eztrim: the trim {trims} is not logical")`. -/
  | notLogical
  /-- `ValueError("eztrim: the trims are not logical")`. -/
  | notLogicalBatch
deriving DecidableEq

/-- Python's built-in `round` on an exact rational: round to the nearest
integer, ties going to the even integer (banker's rounding).  This is the
exact semantics of `round` on `int`/`Fraction` arguments. -/
def pyRound (q : ℚ) : ℤ :=
  if q - (⌊q⌋ : ℚ) < 1 / 2 then ⌊q⌋
  else if 1 / 2 < q - (⌊q⌋ : ℚ) then ⌊q⌋ + 1
  else if ⌊q⌋ % 2 = 0 then ⌊q⌋ else ⌊q⌋ + 1

/-- Left-pad a string with `'0'` up to width `w` (Python's `0`-fill format). -/
def padZeroLeft (w : ℕ) (s : String) : String :=
  if s.length < w then String.mk (List.replicate (w - s.length) '0') ++ s else s

/-- Python `f"{n:0{w}}"` on an integer value: zero-padded decimal, the sign
(if any) in front of the padding. -/
def fmtIntPad (w : ℕ) (n : ℤ) : String :=
  if n < 0 then "-" ++ padZeroLeft (w - 1) (toString n.natAbs)
  else padZeroLeft w (toString n.natAbs)

/-- Python `f"{q:0{w}.{prec}f}"` on a rational standing in for a float:
round to `prec` fractional digits (half-to-even) and zero-pad to total
width `w`. -/
def fmtFixed (w prec : ℕ) (q : ℚ) : String :=
  let n : ℤ := pyRound (q * 10 ^ prec)
  let sign : String := if n < 0 then "-" else ""
  let a : ℕ := n.natAbs
  let body : String :=
    if prec = 0 then toString a
    else toString (a / 10 ^ prec) ++ "." ++ padZeroLeft prec (toString (a % 10 ^ prec))
  sign ++ padZeroLeft (w - sign.length) body

/-- The clip abstraction used by the core: `num_frames`, `fps` (the `0/1`
sentinel meaning variable frame rate), and the per-frame durations
`Fraction(frame.props['_DurationNum'], frame.props['_DurationDen'])`
yielded by the frame iterator, as exact rationals. -/
structure Clip where
  num_frames : ℕ
  fps : ℚ
  durations : List ℚ

/-- State threaded through the loop of `clip_to_timecodes`: the table being
built, the running exact-rational total, the last printed percentage
(`init_percentage`), and the list of percentages printed so far. -/
structure TCState where
  timecodes : List ℚ
  curr_time : ℚ
  init_percentage : ℤ
  prints : List ℤ

/-- `collections.deque.append` under a `maxlen` bound: append on the right,
evicting from the left when the bound is exceeded. -/
def dequeAppend (maxlen : ℕ) (xs : List ℚ) (x : ℚ) : List ℚ :=
  if maxlen < (xs ++ [x]).length then (xs ++ [x]).drop ((xs ++ [x]).length - maxlen)
  else xs ++ [x]

/-- One iteration of the `for frame in src_clip.frames()` loop of
`clip_to_timecodes`: accumulate the duration, append the running total,
and print `percentage_done` when it is a multiple of 10 that differs from
the last printed value.  `percentage_done` is
`round(100 * len(timecodes) / src_clip.num_frames)` with `len` taken after
the append, exactly as in the source. -/
def tcStep (num_frames : ℕ) (st : TCState) (dur : ℚ) : TCState :=
  let curr : ℚ := st.curr_time + dur
  let tcs : List ℚ := dequeAppend (num_frames + 1) st.timecodes curr
  let pd : ℤ := pyRound (100 * (tcs.length : ℚ) / (num_frames : ℚ))
  ⟨tcs, curr,
    if pd % 10 = 0 ∧ pd ≠ st.init_percentage then pd else st.init_percentage,
    if pd % 10 = 0 ∧ pd ≠ st.init_percentage then st.prints ++ [pd] else st.prints⟩

/-- The loop of `clip_to_timecodes` run to completion from the initial state
`deque([0.0], maxlen=num_frames + 1)`, `curr_time = Fraction()`,
`init_percentage = 0`. -/
def clip_to_timecodes_state (src_clip : Clip) : TCState :=
  src_clip.durations.foldl (tcStep src_clip.num_frames) ⟨[0], 0, 0, []⟩

/-- The timecode table returned by `clip_to_timecodes` (floats modelled as
exact rationals). -/
def clip_to_timecodes (src_clip : Clip) : List ℚ :=
  (clip_to_timecodes_state src_clip).timecodes

/-- The sequence of percentages printed by `clip_to_timecodes` while
building the table, in order. -/
def clip_to_timecodes_printed (src_clip : Clip) : List ℤ :=
  (clip_to_timecodes_state src_clip).prints

/-- Python list indexing `xs[i]` including negative-index wrap-around,
raising `IndexError` when out of range. -/
def pyListGet (xs : List ℚ) (i : ℤ) : Except PyErr ℚ :=
  if 0 ≤ i then
    match xs.get? i.toNat with
    | some v => .ok v
    | none => .error .indexError
  else
    let k := (-i).toNat
    if k ≤ xs.length then
      match xs.get? (xs.length - k) with
      | some v => .ok v
      | none => .error .indexError
    else .error .indexError

/-- The constant-frame-rate seconds computation of `f2ts`:
`t = round(10 ** 9 * f * src_clip.fps ** -1); s = t / 10 ** 9`. -/
def f2ts_seconds (f : ℤ) (fps : ℚ) : ℚ :=
  ((pyRound ((10 : ℚ) ^ 9 * (f : ℚ) * fps⁻¹) : ℤ) : ℚ) / 10 ^ 9

/-- The strategy selection of `f2ts`: constant-frame-rate arithmetic when
`fps` is nonzero, else the supplied timecodes file (millisecond entries
divided by 1000), else the derived timecode table. -/
def f2ts_sec_comp (f : ℤ) (timecodes_file : Option (List ℚ))
    (src_clip : Clip) : Except PyErr ℚ :=
  if src_clip.fps ≠ 0 then .ok (f2ts_seconds f src_clip.fps)
  else
    match timecodes_file with
    | some tc => (pyListGet tc f).map (fun x => x / 1000)
    | none => pyListGet (clip_to_timecodes src_clip) f

/-- The tail of `f2ts` once `s` (total seconds) is known: the two
floor-divisions by 60 and the per-precision format strings. -/
def f2ts_format (precision : ℤ) (s0 : ℚ) : String :=
  let m : ℤ := ⌊s0 / 60⌋
  let s1 : ℚ := s0 - 60 * (m : ℚ)
  let h : ℤ := Int.fdiv m 60
  let m2 : ℤ := Int.fmod m 60
  if precision = 0 then
    fmtIntPad 2 h ++ ":" ++ fmtIntPad 2 m2 ++ ":" ++ fmtIntPad 2 (pyRound s1)
  else if precision = 3 then
    fmtIntPad 2 h ++ ":" ++ fmtIntPad 2 m2 ++ ":" ++ fmtFixed 6 3 s1
  else if precision = 6 then
    fmtIntPad 2 h ++ ":" ++ fmtIntPad 2 m2 ++ ":" ++ fmtFixed 9 6 s1
  else
    fmtIntPad 2 h ++ ":" ++ fmtIntPad 2 m2 ++ ":" ++ fmtFixed 12 9 s1

/-- The frame-to-timestamp translator `f2ts`.  The optional
`timecodes_file` argument is modelled as the list of millisecond values on
the lines after the header (the file parse itself is I/O).  Floats are
modelled as exact rationals. -/
def f2ts (f : ℤ) (precision : ℤ) (timecodes_file : Option (List ℚ))
    (src_clip : Clip) : Except PyErr String :=
  if precision ∉ ([0, 3, 6, 9] : List ℤ) then .error (.invalidPrecision precision)
  else (f2ts_sec_comp f timecodes_file src_clip).map (f2ts_format precision)

/-- The single-trim branch of `_negative_to_positive`: `a, b` are each an
`int` or `None` (`a or 0` collapses `None` and the legacy `0` sentinel to
the literal `0`). -/
def negative_to_positive_single (num_frames : ℕ) (a b : Option ℤ) :
    Except PyErr (ℤ × ℤ) :=
  let a2 : ℤ := a.getD 0
  let b2 : ℤ := b.getD 0
  if num_frames < a2.natAbs ∨ num_frames < b2.natAbs then
    .error (.outOfRange (max a2.natAbs b2.natAbs))
  else
    .ok ((if 0 ≤ a2 then a2 else (num_frames : ℤ) + a2),
         (if 0 < b2 then b2 else (num_frames : ℤ) + b2))

/-- The batch (list) branch of `_negative_to_positive`: the length check,
the `None`-to-`0` conversion, the bounds check, the all-positive early
return, and the elementwise conversion, in source order. -/
def negative_to_positive_batch (num_frames : ℕ) (a b : List (Option ℤ)) :
    Except PyErr (List ℤ × List ℤ) :=
  if a.length ≠ b.length then .error .lengthMismatch
  else
    let real_a : List ℤ := a.map (fun i => i.getD 0)
    let real_b : List ℤ := b.map (fun i => i.getD 0)
    if ¬ (real_a.all (fun i => decide (i.natAbs ≤ num_frames)) ∧
          real_b.all (fun i => decide (i.natAbs ≤ num_frames))) then
      .error .outOfRangeBatch
    else if real_a.all (fun i => decide (0 ≤ i)) ∧ real_b.all (fun i => decide (0 < i)) then
      .ok (real_a, real_b)
    else
      .ok (real_a.map (fun x => if 0 ≤ x then x else (num_frames : ℤ) + x),
           real_b.map (fun y => if 0 < y then y else (num_frames : ℤ) + y))

/-- `_check_ordered`: every range spans at least one frame, and every end
is strictly below the next start. -/
def check_ordered (starts ends : List ℤ) : Bool :=
  if ¬ ((List.range starts.length).all
      (fun i => decide (starts.getD i 0 < ends.getD i 0))) then false
  else if ¬ ((List.range (starts.length - 1)).all
      (fun i => decide (ends.getD i 0 < starts.getD (i + 1) 0))) then false
  else true

/-- An element of a `trims` list: either an inner tuple (whose elements are
ints or `None`s) or a non-tuple value. -/
inductive InnerItem
  | tup (xs : List (Option ℤ))
  | notTup
deriving DecidableEq

/-- The `trims` argument of `eztrim`: a tuple, a list, or some other value. -/
inductive TrimsArg
  | tup (xs : List (Option ℤ))
  | list (xs : List InnerItem)
  | other
deriving DecidableEq

/-- The debug-mode result of `eztrim`:
`{'s': start, 'e': end, 'cut_ts_s': ..., 'cut_ts_e': ...}` with integer
fields in single-trim mode and list fields in batch mode. -/
inductive EzOut
  | single (s e : ℤ) (cut_ts_s cut_ts_e : List String)
  | batch (s e : List ℤ) (cut_ts_s cut_ts_e : List String)
deriving DecidableEq

/-- The elementwise validation loop over a `trims` list of length ≠ 1:
each element must be a tuple of exactly two ints/`None`s; the first
offending element raises. -/
def validateListTrims : List InnerItem → Except PyErr (List (Option ℤ × Option ℤ))
  | [] => .ok []
  | .notTup :: _ => .error .trimNotTuple
  | .tup xs :: rest =>
    if xs.length ≠ 2 then .error .trimWrongArity
    else do
      let r ← validateListTrims rest
      pure ((xs.getD 0 none, xs.getD 1 none) :: r)

/-- The single-trim path of `eztrim` after the `trims` argument has been
resolved to a tuple: arity check, normalization, the `end <= start` check,
and the two timestamp translations (at the default precision 3). -/
def tupleTrimPath (clip : Clip) (timecodes_file : Option (List ℚ))
    (xs : List (Option ℤ)) : Except PyErr EzOut :=
  if xs.length ≠ 2 then .error .singleWrongArity
  else do
    let se ← negative_to_positive_single clip.num_frames (xs.getD 0 none) (xs.getD 1 none)
    if se.2 ≤ se.1 then .error .notLogical
    else do
      let ts1 ← f2ts se.1 3 timecodes_file clip
      let ts2 ← f2ts se.2 3 timecodes_file clip
      pure (.single se.1 se.2 [ts1] [ts2])

/-- The trims-argument validation and dispatch of `eztrim`, through to the
debug-mode result.  A list holding exactly one tuple is unwrapped (after a
`SyntaxWarning`, which is logging and not modelled) and falls through to
the tuple code path; a one-element list holding a non-tuple raises
`ValueError`.  The later subprocess orchestration is out of scope. -/
def eztrim (clip : Clip) (trims : TrimsArg) (timecodes_file : Option (List ℚ)) :
    Except PyErr EzOut :=
  match trims with
  | .other => .error .trimsNotListOrTuple
  | .tup xs => tupleTrimPath clip timecodes_file xs
  | .list [InnerItem.tup xs] => tupleTrimPath clip timecodes_file xs
  | .list [InnerItem.notTup] => .error .innerNotTuple
  | .list items => do
    let pairs ← validateListTrims items
    let r ← negative_to_positive_batch clip.num_frames
      (pairs.map Prod.fst) (pairs.map Prod.snd)
    if check_ordered r.1 r.2 then do
      let ss ← r.1.mapM (fun fr => f2ts fr 3 timecodes_file clip)
      let es ← r.2.mapM (fun fr => f2ts fr 3 timecodes_file clip)
      pure (.batch r.1 r.2 ss es)
    else .error .notLogicalBatch

/-- Recognizer for the two `_negative_to_positive` out-of-bounds raise
sites, i.e. the spec's `OutOfRangeError`. -/
def isOutOfRange {α : Type} : Except PyErr α → Bool
  | .error (.outOfRange _) => true
  | .error .outOfRangeBatch => true
  | _ => false

/-- Recognizer for the `f2ts` precision raise site, i.e. the spec's
`InvalidPrecisionError`. -/
def isInvalidPrecision {α : Type} : Except PyErr α → Bool
  | .error (.invalidPrecision _) => true
  | _ => false

/-- Recognizer for a computation that returned normally. -/
def isOk {α : Type} : Except PyErr α → Bool
  | .ok _ => true
  | _ => false

/-- A `functools.lru_cache` cache for `clip_to_timecodes`, most recently
used entry first, keyed by clip identity (a `Nat` token). -/
abbrev TcCache := List (ℕ × List ℚ)

/-- The default `maxsize` of an argument-less `functools.lru_cache`. -/
def lruMaxsize : ℕ := 128

/-- One call through the `functools.lru_cache` wrapper around a build
function: a hit moves the entry to the front and skips the build (third
component `false`); a miss builds, inserts in front, and evicts the least
recently used entry when the cache would exceed `lruMaxsize`. -/
def lruCall (build : ℕ → List ℚ) (c : TcCache) (k : ℕ) :
    List ℚ × TcCache × Bool :=
  match c.find? (fun p => p.1 == k) with
  | some p => (p.2, (k, p.2) :: c.eraseP (fun q => q.1 == k), false)
  | none =>
    let v := build k
    let c2 := (k, v) :: c
    (v, if lruMaxsize < c2.length then c2.dropLast else c2, true)

/-- How many of the calls in `ks`, made in order through the LRU wrapper
starting from cache `c`, invoke the underlying build for key `k`. -/
def buildCountAux (build : ℕ → List ℚ) : TcCache → List ℕ → ℕ → ℕ
  | _, [], _ => 0
  | c, k2 :: ks, k =>
    (if k2 = k ∧ (lruCall build c k2).2.2 = true then 1 else 0) +
      buildCountAux build (lruCall build c k2).2.1 ks k

/-- How many times the call sequence `ks`, starting from an empty cache
(process start), triggers the underlying table build for clip identity
`k`. -/
def buildCount (build : ℕ → List ℚ) (ks : List ℕ) (k : ℕ) : ℕ :=
  buildCountAux build [] ks k

/-- C1: for every total frame count `N` and single trim `(a, b)`, after
mapping `None` (and the legacy `0` sentinel) to the literal `0`,
normalization returns `start = a if a >= 0 else N + a` and
`end = b if b > 0 else N + b`; an end of exactly `0` always becomes `N`, a
start of `-k` (`0 < k ≤ N`) becomes `N - k`, and a trim with `a, b` both
non-negative and `a < b ≤ N` is returned unchanged. -/
theorem c1_normalize_single (N : ℕ) (a b : Option ℤ)
    (ha : (a.getD 0).natAbs ≤ N) (hb : (b.getD 0).natAbs ≤ N) :
    negative_to_positive_single N a b =
      .ok ((if 0 ≤ a.getD 0 then a.getD 0 else (N : ℤ) + a.getD 0),
           (if 0 < b.getD 0 then b.getD 0 else (N : ℤ) + b.getD 0))
    ∧ (b.getD 0 = 0 →
        negative_to_positive_single N a b =
          .ok ((if 0 ≤ a.getD 0 then a.getD 0 else (N : ℤ) + a.getD 0), (N : ℤ)))
    ∧ (∀ k : ℤ, 0 < k → k ≤ (N : ℤ) → a = some (-k) →
        negative_to_positive_single N a b =
          .ok ((N : ℤ) - k, if 0 < b.getD 0 then b.getD 0 else (N : ℤ) + b.getD 0))
    ∧ (0 ≤ a.getD 0 → a.getD 0 < b.getD 0 → b.getD 0 ≤ (N : ℤ) →
        negative_to_positive_single N a b = .ok (a.getD 0, b.getD 0)) := by
  have hguard : ¬ (N < (a.getD 0).natAbs ∨ N < (b.getD 0).natAbs) := by omega
  have hmain : negative_to_positive_single N a b =
      .ok ((if 0 ≤ a.getD 0 then a.getD 0 else (N : ℤ) + a.getD 0),
           (if 0 < b.getD 0 then b.getD 0 else (N : ℤ) + b.getD 0)) := by
    rw [negative_to_positive_single, if_neg hguard]
  refine ⟨hmain, ?_, ?_, ?_⟩
  · intro h0
    rw [hmain, h0]
    norm_num
  · intro k hk hkN hak
    subst hak
    simp only [Option.getD_some] at hmain ⊢
    rw [hmain, if_neg (by omega)]
    have hnk : (N : ℤ) + -k = (N : ℤ) - k := by ring
    rw [hnk]
  · intro h1 h2 h3
    rw [hmain, if_pos h1, if_pos (by omega)]

/-- C2: the range-ordering check returns `True` iff every range spans at
least one frame and every end is strictly below the next start; touching
ranges are rejected, so `check_ordered([0],[5])` is `True`,
`check_ordered([0,5],[5,10])` is `False`, and `check_ordered([0,6],[5,10])`
is `True`. -/
theorem c2_check_ordered :
    (∀ (starts ends : List ℤ), starts.length = ends.length →
      (check_ordered starts ends = true ↔
        ((∀ i < starts.length, starts.getD i 0 < ends.getD i 0) ∧
         (∀ i, i + 1 < starts.length → ends.getD i 0 < starts.getD (i + 1) 0))))
    ∧ check_ordered [0] [5] = true
    ∧ check_ordered [0, 5] [5, 10] = false
    ∧ check_ordered [0, 6] [5, 10] = true := by
  refine ⟨?_, by decide, by decide, by decide⟩
  intro starts ends _
  have h1 : ((List.range starts.length).all
      (fun i => decide (starts.getD i 0 < ends.getD i 0))) = true ↔
      ∀ i < starts.length, starts.getD i 0 < ends.getD i 0 := by
    simp [List.all_eq_true]
  have h2 : ((List.range (starts.length - 1)).all
      (fun i => decide (ends.getD i 0 < starts.getD (i + 1) 0))) = true ↔
      ∀ i, i + 1 < starts.length → ends.getD i 0 < starts.getD (i + 1) 0 := by
    simp only [List.all_eq_true, List.mem_range, decide_eq_true_eq]
    constructor
    · intro h i hi
      exact h i (by omega)
    · intro h i hi
      exact h i (by omega)
  have hco : check_ordered starts ends =
      (((List.range starts.length).all
          (fun i => decide (starts.getD i 0 < ends.getD i 0))) &&
       ((List.range (starts.length - 1)).all
          (fun i => decide (ends.getD i 0 < starts.getD (i + 1) 0)))) := by
    rw [check_ordered]
    cases hX : ((List.range starts.length).all
        (fun i => decide (starts.getD i 0 < ends.getD i 0))) <;>
      cases hY : ((List.range (starts.length - 1)).all
        (fun i => decide (ends.getD i 0 < starts.getD (i + 1) 0))) <;>
      simp
  rw [hco, Bool.and_eq_true]
  exact and_congr h1 h2

/-- C2 witness: the ordering characterization applied to the concrete pair
`([0], [5])`. -/
theorem c2_check_ordered_witness :
    check_ordered [0] [5] = true ↔
      ((∀ i < ([0] : List ℤ).length, ([0] : List ℤ).getD i 0 < ([5] : List ℤ).getD i 0) ∧
       (∀ i, i + 1 < ([0] : List ℤ).length →
         ([5] : List ℤ).getD i 0 < ([0] : List ℤ).getD (i + 1) 0)) :=
  c2_check_ordered.1 [0] [5] (by decide)

/-- C1 witness: the normalization formula applied to `N = 10`,
`(a, b) = (-3, None)`. -/
theorem c1_normalize_single_witness :
    negative_to_positive_single 10 (some (-3)) none = .ok (7, 10) := by
  have h := (c1_normalize_single 10 (some (-3)) none (by decide) (by decide)).1
  rw [h]
  norm_num

/-- C3: with a defined nonzero frame rate, `f2ts` computes
`seconds = round(1e9 * f / frame_rate) / 1e9` (nearest-nanosecond
rounding over exact rationals); with `frame_rate = 24000/1001`, frame `0`
formats at precision 3 as `"00:00:00.000"` and frame `24` as the timestamp
of `round(1e9*24*1001/24000)/1e9` seconds to 3 decimals. -/
theorem c3_cfr_timestamp :
    (∀ (f : ℤ) (fps : ℚ), fps ≠ 0 →
       f2ts_seconds f fps = ((pyRound ((10 : ℚ) ^ 9 * (f : ℚ) / fps) : ℤ) : ℚ) / 10 ^ 9)
    ∧ f2ts 0 3 none ⟨100, 24000 / 1001, []⟩ = .ok "00:00:00.000"
    ∧ f2ts 24 3 none ⟨100, 24000 / 1001, []⟩ = .ok "00:00:01.001"
    ∧ f2ts_seconds 24 (24000 / 1001) =
        ((pyRound ((10 : ℚ) ^ 9 * 24 * 1001 / 24000) : ℤ) : ℚ) / 10 ^ 9 := by
  refine ⟨?_, by with_unfolding_all rfl, by with_unfolding_all rfl, by with_unfolding_all rfl⟩
  intro f fps _
  rw [f2ts_seconds, div_eq_mul_inv ((10 : ℚ) ^ 9 * (f : ℚ)) fps]

/-- C3 witness: the seconds formula applied to frame 24 at the NTSC film
rate `24000/1001`. -/
theorem c3_cfr_timestamp_witness :
    f2ts_seconds 24 (24000 / 1001) =
      ((pyRound ((10 : ℚ) ^ 9 * ((24 : ℤ) : ℚ) / (24000 / 1001)) : ℤ) : ℚ) / 10 ^ 9 :=
  c3_cfr_timestamp.1 24 (24000 / 1001) (by norm_num)

/-- C5 counterexample: in batch mode the length check runs before the
bounds check, so `_negative_to_positive(10, [11], [5, 6])` raises the
length-mismatch error even though the supplied index `11` has absolute
value greater than `N = 10`; no `OutOfRangeError` is raised. -/
theorem c5_counterexample :
    isOutOfRange (negative_to_positive_batch 10 [some 11] [some 5, some 6]) = false
    ∧ negative_to_positive_batch 10 [some 11] [some 5, some 6] = .error .lengthMismatch
    ∧ (([some 11, some 5, some 6] : List (Option ℤ)).any
        (fun x => decide (10 < (x.getD 0).natAbs))) = true :=
  ⟨rfl, rfl, rfl⟩

/-- C5 (amended): normalization raises `OutOfRangeError` iff some supplied
index (after `None`/`0` conversion) has absolute value greater than `N`, in
single-trim mode unconditionally and in batch mode for equal-length lists
(a length mismatch is reported as `LengthMismatchError` first);
`normalize(10, 11, 5)` raises `OutOfRangeError`, and indices with absolute
value at most `N` (in particular exactly `N`) are accepted. -/
theorem c5_out_of_range (N : ℕ) (a b : Option ℤ) (xs ys : List (Option ℤ))
    (hlen : xs.length = ys.length) :
    (isOutOfRange (negative_to_positive_single N a b) = true ↔
       (N < (a.getD 0).natAbs ∨ N < (b.getD 0).natAbs))
    ∧ (isOutOfRange (negative_to_positive_batch N xs ys) = true ↔
       ∃ x ∈ xs ++ ys, N < (x.getD 0).natAbs)
    ∧ negative_to_positive_single 10 (some 11) (some 5) = .error (.outOfRange 11)
    ∧ ((a.getD 0).natAbs ≤ N → (b.getD 0).natAbs ≤ N →
        isOk (negative_to_positive_single N a b) = true) := by
  have hall : ((((xs.map (fun i => i.getD 0)).all (fun i => decide (i.natAbs ≤ N))) = true ∧
               (((ys.map (fun i => i.getD 0)).all (fun i => decide (i.natAbs ≤ N))) = true)) ↔
      ∀ x ∈ xs ++ ys, (x.getD 0).natAbs ≤ N) := by
    simp [List.all_eq_true, List.mem_append, or_imp, forall_and]
  refine ⟨?_, ?_, rfl, ?_⟩
  · rw [negative_to_positive_single]
    by_cases hc : (N < (a.getD 0).natAbs ∨ N < (b.getD 0).natAbs)
    · rw [if_pos hc]
      simp [isOutOfRange, hc]
    · rw [if_neg hc]
      simp [isOutOfRange, hc]
  · rw [negative_to_positive_batch, if_neg (by simp [hlen])]
    by_cases hc : ¬ ((((xs.map (fun i => i.getD 0)).all (fun i => decide (i.natAbs ≤ N))) = true) ∧
        (((ys.map (fun i => i.getD 0)).all (fun i => decide (i.natAbs ≤ N))) = true))
    · rw [if_pos hc]
      simp only [isOutOfRange, true_iff]
      rw [hall] at hc
      push_neg at hc
      obtain ⟨x, hx, hxN⟩ := hc
      exact ⟨x, hx, by omega⟩
    · rw [if_neg hc]
      rw [not_not, hall] at hc
      have hnone : ¬ ∃ x ∈ xs ++ ys, N < (x.getD 0).natAbs := by
        push_neg
        intro x hx
        exact hc x hx
      have hfalse : ∀ (c : Prop) (_ : Decidable c) (x y : List ℤ × List ℤ),
          isOutOfRange (if c then Except.ok x else Except.ok y) = false := by
        intro c inst x y
        split_ifs <;> rfl
      rw [hfalse]
      simp only [Bool.false_eq_true, false_iff]
      exact hnone
  · intro ha hb
    rw [negative_to_positive_single, if_neg (by omega)]
    rfl

/-- C5 witness: the out-of-range characterization applied to `N = 10`,
single trim `(11, 5)` and batch trims `([11], [5])`. -/
theorem c5_out_of_range_witness :
    (isOutOfRange (negative_to_positive_single 10 (some 11) (some 5)) = true ↔
       (10 < ((some (11 : ℤ)).getD 0).natAbs ∨ 10 < ((some (5 : ℤ)).getD 0).natAbs))
    ∧ (isOutOfRange (negative_to_positive_batch 10 [some 11] [some 5]) = true ↔
       ∃ x ∈ ([some 11] ++ [some 5] : List (Option ℤ)), 10 < (x.getD 0).natAbs) :=
  ⟨(c5_out_of_range 10 (some 11) (some 5) [some 11] [some 5] rfl).1,
   (c5_out_of_range 10 (some 11) (some 5) [some 11] [some 5] rfl).2.1⟩

/-- Helper: `pyListGet` never produces the invalid-precision error. -/
theorem isInvalidPrecision_pyListGet (xs : List ℚ) (i : ℤ) :
    isInvalidPrecision (pyListGet xs i) = false := by
  rw [pyListGet]
  split
  · split <;> rfl
  · dsimp only
    split
    · split <;> rfl
    · rfl

/-- Helper: `Except.map` does not change which error a computation holds. -/
theorem isInvalidPrecision_map {α β : Type} (g : α → β) (r : Except PyErr α) :
    isInvalidPrecision (r.map g) = isInvalidPrecision r := by
  cases r with
  | ok v => rfl
  | error e => cases e <;> rfl

/-- C6: `f2ts` reports the invalid-precision error iff the requested
precision is not one of {0, 3, 6, 9}; in particular precision 4 raises,
and a valid precision never produces that error. -/
theorem c6_invalid_precision :
    (∀ (f precision : ℤ) (tcf : Option (List ℚ)) (clip : Clip),
       isInvalidPrecision (f2ts f precision tcf clip) = true ↔
         precision ∉ ([0, 3, 6, 9] : List ℤ))
    ∧ isInvalidPrecision (f2ts 5 4 none ⟨100, 24000 / 1001, []⟩) = true := by
  constructor
  · intro f precision tcf clip
    by_cases hp : precision ∈ ([0, 3, 6, 9] : List ℤ)
    · have hsec : isInvalidPrecision (f2ts_sec_comp f tcf clip) = false := by
        rw [f2ts_sec_comp.eq_def]
        split_ifs with hf
        · rfl
        · cases tcf with
          | none => exact isInvalidPrecision_pyListGet _ _
          | some tc =>
            rw [isInvalidPrecision_map]
            exact isInvalidPrecision_pyListGet _ _
      have hfalse : isInvalidPrecision (f2ts f precision tcf clip) = false := by
        rw [f2ts, if_neg (not_not_intro hp), isInvalidPrecision_map]
        exact hsec
      rw [hfalse]
      simp [hp]
    · have htrue : isInvalidPrecision (f2ts f precision tcf clip) = true := by
        rw [f2ts, if_pos hp]
        rfl
      rw [htrue]
      simp [hp]
  · rfl

/-- C10: when the `trims` argument is a list holding exactly one element,
that element must be a tuple or `ValueError` is raised; when it is a tuple
the list is unwrapped and the call behaves identically to passing the bare
tuple in single-trim mode, including the single-trim shape of the
debug-mode result. -/
theorem c10_one_element_list (clip : Clip) (tcf : Option (List ℚ)) :
    (∀ xs : List (Option ℤ),
      eztrim clip (.list [InnerItem.tup xs]) tcf = eztrim clip (.tup xs) tcf)
    ∧ eztrim clip (.list [InnerItem.notTup]) tcf = .error .innerNotTuple :=
  ⟨fun _ => rfl, rfl⟩

/-- Helper: a deque append below the capacity is a plain append. -/
theorem dequeAppend_of_le (m : ℕ) (xs : List ℚ) (x : ℚ) (h : xs.length + 1 ≤ m) :
    dequeAppend m xs x = xs ++ [x] := by
  rw [dequeAppend, if_neg]
  simp only [List.length_append, List.length_singleton]
  omega

/-- Helper: structure eta for `TCState` given its first two fields. -/
theorem TCState.eta_mk (st : TCState) (A : List ℚ) (B : ℚ)
    (hA : st.timecodes = A) (hB : st.curr_time = B) :
    st = ⟨A, B, st.init_percentage, st.prints⟩ := by
  cases st
  cases hA
  cases hB
  rfl

/-- Helper: the timecode table accumulated by the `clip_to_timecodes` loop
is the table of partial sums of the durations, independently of the
progress-print state. -/
theorem tcFold_timecodes (N : ℕ) (pending : List ℚ) :
    ∀ (done : List ℚ) (pct : ℤ) (pr : List ℤ),
      done.length + pending.length = N →
      (List.foldl (tcStep N)
        ⟨(List.range (done.length + 1)).map (fun k => ((done.take k).sum)),
          done.sum, pct, pr⟩ pending).timecodes
      = (List.range (N + 1)).map (fun k => (((done ++ pending).take k).sum)) := by
  induction pending with
  | nil =>
    intro done pct pr hlen
    simp only [List.length_nil, Nat.add_zero] at hlen
    subst hlen
    simp
  | cons d rest ih =>
    intro done pct pr hlen
    have hm : done.length + 1 ≤ N := by
      simp only [List.length_cons] at hlen
      omega
    rw [List.foldl_cons]
    have hproj : (tcStep N
        ⟨(List.range (done.length + 1)).map (fun k => ((done.take k).sum)),
          done.sum, pct, pr⟩ d).timecodes
        = (List.range (done.length + 1)).map (fun k => ((done.take k).sum))
            ++ [done.sum + d] := by
      have h1 : (tcStep N
          ⟨(List.range (done.length + 1)).map (fun k => ((done.take k).sum)),
            done.sum, pct, pr⟩ d).timecodes
          = dequeAppend (N + 1)
              ((List.range (done.length + 1)).map (fun k => ((done.take k).sum)))
              (done.sum + d) := rfl
      rw [h1]
      apply dequeAppend_of_le
      simp only [List.length_map, List.length_range]
      omega
    have htab : (List.range (done.length + 1)).map (fun k => ((done.take k).sum))
          ++ [done.sum + d]
        = (List.range (done.length + 1 + 1)).map
            (fun k => (((done ++ [d]).take k).sum)) := by
      rw [List.range_succ (done.length + 1), List.map_append]
      congr 1
      · apply List.map_congr_left
        intro k hk
        rw [List.mem_range] at hk
        rw [List.take_append_of_le_length (by omega)]
      · simp only [List.map_cons, List.map_nil]
        congr 1
        rw [List.take_of_length_le (by simp), List.sum_append]
        simp
    have hcurr : (tcStep N
        ⟨(List.range (done.length + 1)).map (fun k => ((done.take k).sum)),
          done.sum, pct, pr⟩ d).curr_time = (done ++ [d]).sum := by
      have h2 : (tcStep N
          ⟨(List.range (done.length + 1)).map (fun k => ((done.take k).sum)),
            done.sum, pct, pr⟩ d).curr_time = done.sum + d := rfl
      rw [h2, List.sum_append]
      simp
    rw [TCState.eta_mk _ _ _ (hproj.trans htab) hcurr]
    have hdone2 : (done ++ [d]).length + rest.length = N := by
      simp only [List.length_append, List.length_singleton]
      simp only [List.length_cons] at hlen
      omega
    rw [show done.length + 1 + 1 = (done ++ [d]).length + 1 by simp]
    rw [ih (done ++ [d]) _ _ hdone2]
    rw [List.append_assoc]
    simp

/-- Helper: a map of a monotone function over `List.range` is a
`≤`-chain. -/
theorem chain_le_map_range (f : ℕ → ℚ) (n : ℕ)
    (hf : ∀ i, i + 1 < n → f i ≤ f (i + 1)) :
    List.Chain' (· ≤ ·) ((List.range n).map f) := by
  rw [List.chain'_map]
  cases n with
  | zero => simp
  | succ m =>
    rw [List.chain'_range_succ]
    intro i hi
    exact hf i (by omega)

/-- C4: for a clip of `N` frames with non-negative per-frame durations, the
timecode table is exactly the partial sums of the durations: it has `N + 1`
entries, starts at `0.0`, and is non-decreasing in the frame index. -/
theorem c4_timecode_table (N : ℕ) (durs : List ℚ) (hlen : durs.length = N)
    (hpos : ∀ d ∈ durs, 0 ≤ d) :
    clip_to_timecodes ⟨N, 0, durs⟩ =
      (List.range (N + 1)).map (fun k => ((durs.take k).sum))
    ∧ (clip_to_timecodes ⟨N, 0, durs⟩).length = N + 1
    ∧ (clip_to_timecodes ⟨N, 0, durs⟩).head? = some 0
    ∧ List.Chain' (· ≤ ·) (clip_to_timecodes ⟨N, 0, durs⟩) := by
  have htab : clip_to_timecodes ⟨N, 0, durs⟩ =
      (List.range (N + 1)).map (fun k => ((durs.take k).sum)) := by
    rw [clip_to_timecodes, clip_to_timecodes_state]
    have hinit := tcFold_timecodes N durs [] 0 [] (by simpa using hlen)
    simpa using hinit
  refine ⟨htab, ?_, ?_, ?_⟩
  · rw [htab]
    simp
  · rw [htab, List.range_succ_eq_map]
    simp
  · rw [htab]
    apply chain_le_map_range
    intro i hi
    have hilen : i < durs.length := by omega
    rw [List.sum_take_succ durs i hilen]
    have hnn : (0 : ℚ) ≤ durs[i] := hpos _ (List.getElem_mem hilen)
    linarith

/-- C4 witness: the table invariants for a two-frame clip with frame
durations `1/24`. -/
theorem c4_timecode_table_witness :
    clip_to_timecodes ⟨2, 0, [1 / 24, 1 / 24]⟩ =
      (List.range (2 + 1)).map (fun k => ((([1 / 24, 1 / 24] : List ℚ).take k).sum))
    ∧ (clip_to_timecodes ⟨2, 0, [1 / 24, 1 / 24]⟩).length = 2 + 1
    ∧ (clip_to_timecodes ⟨2, 0, [1 / 24, 1 / 24]⟩).head? = some 0
    ∧ List.Chain' (· ≤ ·) (clip_to_timecodes ⟨2, 0, [1 / 24, 1 / 24]⟩) :=
  c4_timecode_table 2 [1 / 24, 1 / 24] rfl (by norm_num)

/-- Helper: `getD` after a `map`, at an in-range index. -/
theorem getD_map_of_lt {α β : Type} (f : α → β) (l : List α) (i : ℕ)
    (hi : i < l.length) (d : α) (d2 : β) :
    (l.map f).getD i d2 = f (l.getD i d) := by
  rw [List.getD_eq_getElem?_getD, List.getD_eq_getElem?_getD, List.getElem?_map,
    List.getElem?_eq_getElem hi]
  rfl

/-- Helper: `getD` at an in-range index is a member of the list. -/
theorem getD_mem_of_lt {α : Type} (l : List α) (i : ℕ) (hi : i < l.length) (d : α) :
    l.getD i d ∈ l := by
  have hgd : l.getD i d = l[i] := by
    rw [List.getD_eq_getElem?_getD, List.getElem?_eq_getElem hi]
    rfl
  rw [hgd]
  exact List.getElem_mem hi

/-- Helper: the batch bounds check passes iff every converted element is
within bounds. -/
theorem batch_bounds_iff (N : ℕ) (xs ys : List (Option ℤ)) :
    ((((xs.map (fun i => i.getD 0)).all (fun i => decide (i.natAbs ≤ N))) = true ∧
      (((ys.map (fun i => i.getD 0)).all (fun i => decide (i.natAbs ≤ N))) = true)) ↔
      ∀ x ∈ xs ++ ys, (x.getD 0).natAbs ≤ N) := by
  simp [List.all_eq_true, List.mem_append, or_imp, forall_and]

/-- Helper: for equal-length in-bounds input, the batch branch of
`_negative_to_positive` returns the elementwise conversions (the
all-positive early return coincides with them). -/
theorem batch_ok_form (N : ℕ) (xs ys : List (Option ℤ))
    (hlen : xs.length = ys.length)
    (hbound : ∀ x ∈ xs ++ ys, (x.getD 0).natAbs ≤ N) :
    negative_to_positive_batch N xs ys = .ok
      ((xs.map (fun i => i.getD 0)).map (fun x => if 0 ≤ x then x else (N : ℤ) + x),
       (ys.map (fun i => i.getD 0)).map (fun y => if 0 < y then y else (N : ℤ) + y)) := by
  have hball := (batch_bounds_iff N xs ys).mpr hbound
  rw [negative_to_positive_batch, if_neg (by simp [hlen]), if_neg (not_not_intro hball)]
  split_ifs with hpos
  · have hxid : (xs.map (fun i => i.getD 0)).map
        (fun x => if 0 ≤ x then x else (N : ℤ) + x) = xs.map (fun i => i.getD 0) := by
      have h1 := hpos.1
      rw [List.all_eq_true] at h1
      calc (xs.map (fun i => i.getD 0)).map (fun x => if 0 ≤ x then x else (N : ℤ) + x)
          = (xs.map (fun i => i.getD 0)).map id := by
            apply List.map_congr_left
            intro x hx
            have hx2 := h1 x hx
            simp only [decide_eq_true_eq] at hx2
            simp [hx2]
        _ = xs.map (fun i => i.getD 0) := List.map_id _
    have hyid : (ys.map (fun i => i.getD 0)).map
        (fun y => if 0 < y then y else (N : ℤ) + y) = ys.map (fun i => i.getD 0) := by
      have h2 := hpos.2
      rw [List.all_eq_true] at h2
      calc (ys.map (fun i => i.getD 0)).map (fun y => if 0 < y then y else (N : ℤ) + y)
          = (ys.map (fun i => i.getD 0)).map id := by
            apply List.map_congr_left
            intro y hy
            have hy2 := h2 y hy
            simp only [decide_eq_true_eq] at hy2
            simp [hy2]
        _ = ys.map (fun i => i.getD 0) := List.map_id _
    rw [hxid, hyid]
  · rfl

/-- C9: batch-mode normalization is elementwise equivalent to single-trim
normalization: for equal-length in-bounds lists the returned lists are the
single-trim results of each pair, and batch mode errors exactly when the
lists differ in length or some element is out of bounds. -/
theorem c9_batch_elementwise (N : ℕ) (xs ys : List (Option ℤ)) :
    (xs.length = ys.length → (∀ x ∈ xs ++ ys, (x.getD 0).natAbs ≤ N) →
      ∃ ss es, negative_to_positive_batch N xs ys = .ok (ss, es)
        ∧ ss.length = xs.length ∧ es.length = ys.length
        ∧ ∀ i < xs.length,
            negative_to_positive_single N (xs.getD i none) (ys.getD i none) =
              .ok (ss.getD i 0, es.getD i 0))
    ∧ (isOk (negative_to_positive_batch N xs ys) = false ↔
        xs.length ≠ ys.length ∨ ∃ x ∈ xs ++ ys, N < (x.getD 0).natAbs) := by
  constructor
  · intro hlen hbound
    refine ⟨_, _, batch_ok_form N xs ys hlen hbound, by simp, by simp, ?_⟩
    intro i hi
    have hiy : i < ys.length := by omega
    have hax : ((xs.getD i none).getD 0).natAbs ≤ N :=
      hbound _ (List.mem_append.mpr (Or.inl (getD_mem_of_lt xs i hi none)))
    have hay : ((ys.getD i none).getD 0).natAbs ≤ N :=
      hbound _ (List.mem_append.mpr (Or.inr (getD_mem_of_lt ys i hiy none)))
    have hss : ((xs.map (fun j => j.getD 0)).map
          (fun x => if 0 ≤ x then x else (N : ℤ) + x)).getD i 0
        = (if 0 ≤ (xs.getD i none).getD 0 then (xs.getD i none).getD 0
           else (N : ℤ) + (xs.getD i none).getD 0) := by
      rw [getD_map_of_lt _ _ i (by simpa using hi) 0 0,
        getD_map_of_lt _ _ i hi none 0]
    have hes : ((ys.map (fun j => j.getD 0)).map
          (fun y => if 0 < y then y else (N : ℤ) + y)).getD i 0
        = (if 0 < (ys.getD i none).getD 0 then (ys.getD i none).getD 0
           else (N : ℤ) + (ys.getD i none).getD 0) := by
      rw [getD_map_of_lt _ _ i (by simpa using hiy) 0 0,
        getD_map_of_lt _ _ i hiy none 0]
    rw [negative_to_positive_single, if_neg (by omega), hss, hes]
  · by_cases hl : xs.length = ys.length
    · by_cases hb : ∀ x ∈ xs ++ ys, (x.getD 0).natAbs ≤ N
      · rw [batch_ok_form N xs ys hl hb]
        simp only [isOk, Bool.true_eq_false, false_iff]
        push_neg
        refine ⟨hl, ?_⟩
        intro x hx
        exact hb x hx
      · have hAB : ¬ ((((xs.map (fun i => i.getD 0)).all
              (fun i => decide (i.natAbs ≤ N))) = true) ∧
            (((ys.map (fun i => i.getD 0)).all (fun i => decide (i.natAbs ≤ N))) = true)) :=
          fun h => hb ((batch_bounds_iff N xs ys).mp h)
        rw [negative_to_positive_batch, if_neg (by simp [hl]), if_pos hAB]
        simp only [isOk, true_iff]
        right
        push_neg at hb
        obtain ⟨x, hx, hxN⟩ := hb
        exact ⟨x, hx, hxN⟩
    · rw [negative_to_positive_batch, if_pos hl]
      simp [isOk, hl]

/-- C9 witness: the elementwise correspondence and error characterization
at `N = 10`, `starts = [3, -5]`, `ends = [4, None]`. -/
theorem c9_batch_elementwise_witness :
    (∃ ss es, negative_to_positive_batch 10 [some 3, some (-5)] [some 4, none] =
        .ok (ss, es)
      ∧ ss.length = ([some 3, some (-5)] : List (Option ℤ)).length
      ∧ es.length = ([some 4, none] : List (Option ℤ)).length
      ∧ ∀ i < ([some 3, some (-5)] : List (Option ℤ)).length,
          negative_to_positive_single 10 (([some 3, some (-5)] : List (Option ℤ)).getD i none)
              (([some 4, none] : List (Option ℤ)).getD i none) =
            .ok (ss.getD i 0, es.getD i 0)) :=
  (c9_batch_elementwise 10 [some 3, some (-5)] [some 4, none]).1 rfl (by decide)

/-- Helper: `pyRound` returns the floor or the floor plus one. -/
theorem pyRound_cases (q : ℚ) : pyRound q = ⌊q⌋ ∨ pyRound q = ⌊q⌋ + 1 := by
  rw [pyRound]
  split_ifs <;> simp

/-- Helper: `pyRound` of a non-negative rational is non-negative. -/
theorem pyRound_nonneg (q : ℚ) (hq : 0 ≤ q) : 0 ≤ pyRound q := by
  have hfl := Int.floor_nonneg.mpr hq
  rcases pyRound_cases q with h | h <;> omega

/-- Helper: `pyRound` (round-half-to-even) is monotone. -/
theorem pyRound_mono {p q : ℚ} (hpq : p ≤ q) : pyRound p ≤ pyRound q := by
  have hfl : ⌊p⌋ ≤ ⌊q⌋ := Int.floor_mono hpq
  rcases lt_or_eq_of_le hfl with hlt | heq
  · rcases pyRound_cases p with h1 | h1 <;> rcases pyRound_cases q with h2 | h2 <;> omega
  · have hfr : p - (⌊p⌋ : ℚ) ≤ q - (⌊q⌋ : ℚ) := by
      rw [heq]
      have : (⌊q⌋ : ℚ) = (⌊q⌋ : ℚ) := rfl
      linarith [sub_le_sub_right hpq ((⌊q⌋ : ℚ))]
    rw [pyRound, pyRound]
    split_ifs <;> first | omega | (exfalso; linarith)

/-- Helper: the length of a bounded deque append. -/
theorem dequeAppend_length (m : ℕ) (xs : List ℚ) (x : ℚ) :
    (dequeAppend m xs x).length = min (xs.length + 1) m := by
  rw [dequeAppend]
  split_ifs with h
  · simp only [List.length_drop, List.length_append, List.length_singleton] at h ⊢
    omega
  · simp only [List.length_append, List.length_singleton] at h ⊢
    omega

/-- Helper: one loop iteration of the table builder preserves the progress
invariant: printed values are multiples of 10, strictly increasing, the
last printed value is `init_percentage` and never exceeds the percentage
computed from the current table length, which stays within the deque
bound. -/
theorem tcStep_inv (N : ℕ) (st : TCState) (d : ℚ)
    (h1 : ∀ x ∈ st.prints, x % 10 = 0)
    (h2 : List.Chain' (· < ·) st.prints)
    (h3 : st.init_percentage ≤ pyRound (100 * (st.timecodes.length : ℚ) / (N : ℚ)))
    (h4 : st.prints.getLast? = some st.init_percentage ∨
      (st.prints = [] ∧ st.init_percentage = 0))
    (h5 : st.timecodes.length ≤ N + 1) :
    (∀ x ∈ (tcStep N st d).prints, x % 10 = 0) ∧
    List.Chain' (· < ·) (tcStep N st d).prints ∧
    (tcStep N st d).init_percentage ≤
      pyRound (100 * ((tcStep N st d).timecodes.length : ℚ) / (N : ℚ)) ∧
    ((tcStep N st d).prints.getLast? = some (tcStep N st d).init_percentage ∨
      ((tcStep N st d).prints = [] ∧ (tcStep N st d).init_percentage = 0)) ∧
    (tcStep N st d).timecodes.length ≤ N + 1 := by
  obtain ⟨tcs0, c0, i0, p0⟩ := st
  simp only [tcStep] at *
  have hlen : (dequeAppend (N + 1) tcs0 (c0 + d)).length = min (tcs0.length + 1) (N + 1) :=
    dequeAppend_length (N + 1) tcs0 (c0 + d)
  have hlen_ge : tcs0.length ≤ (dequeAppend (N + 1) tcs0 (c0 + d)).length := by omega
  have hlen_le : (dequeAppend (N + 1) tcs0 (c0 + d)).length ≤ N + 1 := by omega
  have harg : (100 * (tcs0.length : ℚ) / (N : ℚ)) ≤
      (100 * ((dequeAppend (N + 1) tcs0 (c0 + d)).length : ℚ) / (N : ℚ)) := by
    have hq : (tcs0.length : ℚ) ≤ ((dequeAppend (N + 1) tcs0 (c0 + d)).length : ℚ) := by
      exact_mod_cast hlen_ge
    exact div_le_div_of_nonneg_right (by linarith) (Nat.cast_nonneg N)
  have hmono : pyRound (100 * (tcs0.length : ℚ) / (N : ℚ)) ≤
      pyRound (100 * ((dequeAppend (N + 1) tcs0 (c0 + d)).length : ℚ) / (N : ℚ)) :=
    pyRound_mono harg
  have hinit_le : i0 ≤
      pyRound (100 * ((dequeAppend (N + 1) tcs0 (c0 + d)).length : ℚ) / (N : ℚ)) :=
    le_trans h3 hmono
  by_cases hc : (pyRound (100 * ((dequeAppend (N + 1) tcs0 (c0 + d)).length : ℚ) / (N : ℚ)) % 10 = 0
      ∧ pyRound (100 * ((dequeAppend (N + 1) tcs0 (c0 + d)).length : ℚ) / (N : ℚ)) ≠ i0)
  · simp only [if_pos hc]
    have hlt : i0 < pyRound (100 * ((dequeAppend (N + 1) tcs0 (c0 + d)).length : ℚ) / (N : ℚ)) :=
      lt_of_le_of_ne hinit_le (Ne.symm hc.2)
    refine ⟨?_, ?_, le_refl _, ?_, hlen_le⟩
    · intro x hx
      rcases List.mem_append.mp hx with hx1 | hx1
      · exact h1 x hx1
      · rw [List.mem_singleton] at hx1
        subst hx1
        exact hc.1
    · rw [List.chain'_append]
      refine ⟨h2, List.chain'_singleton _, ?_⟩
      intro x hx y hy
      simp only [List.head?_cons, Option.mem_def, Option.some.injEq] at hy
      subst hy
      rcases h4 with h4a | h4b
      · rw [h4a] at hx
        simp only [Option.mem_def, Option.some.injEq] at hx
        subst hx
        exact hlt
      · rw [h4b.1] at hx
        simp at hx
    · left
      rw [List.getLast?_concat]
  · simp only [if_neg hc]
    exact ⟨h1, h2, hinit_le, h4, hlen_le⟩

/-- Helper: the progress invariant holds after folding any list of
durations. -/
theorem tcFold_inv (N : ℕ) (ds : List ℚ) :
    ∀ st : TCState,
      (∀ x ∈ st.prints, x % 10 = 0) →
      List.Chain' (· < ·) st.prints →
      st.init_percentage ≤ pyRound (100 * (st.timecodes.length : ℚ) / (N : ℚ)) →
      (st.prints.getLast? = some st.init_percentage ∨
        (st.prints = [] ∧ st.init_percentage = 0)) →
      st.timecodes.length ≤ N + 1 →
      ((∀ x ∈ (List.foldl (tcStep N) st ds).prints, x % 10 = 0) ∧
       List.Chain' (· < ·) (List.foldl (tcStep N) st ds).prints) := by
  induction ds with
  | nil =>
    intro st h1 h2 _ _ _
    exact ⟨h1, h2⟩
  | cons d rest ih =>
    intro st h1 h2 h3 h4 h5
    rw [List.foldl_cons]
    obtain ⟨g1, g2, g3, g4, g5⟩ := tcStep_inv N st d h1 h2 h3 h4 h5
    exact ih _ g1 g2 g3 g4 g5

/-- C7 counterexample: for a 10-frame clip the builder prints
20 %, 30 %, …, 110 % — the 10 % boundary is never reported and a value
outside 10–100 (namely 110) is printed, because `percentage_done` is
computed from the table length (frames processed + 1). -/
theorem c7_counterexample :
    clip_to_timecodes_printed ⟨10, 0, List.replicate 10 ((1 : ℚ) / 24)⟩ =
      [20, 30, 40, 50, 60, 70, 80, 90, 100, 110]
    ∧ (clip_to_timecodes_printed ⟨10, 0, List.replicate 10 ((1 : ℚ) / 24)⟩).contains 110 = true
    ∧ (clip_to_timecodes_printed ⟨10, 0, List.replicate 10 ((1 : ℚ) / 24)⟩).contains 10 = false := by
  refine ⟨?_, ?_, ?_⟩ <;> with_unfolding_all decide

/-- C7 (amended): while building the table the builder prints
`round(100 * len(table) / N)` (where `len(table)` is one more than the
number of frames processed) whenever that value is a multiple of 10 that
differs from the previously printed value; the printed values are hence
multiples of 10 and strictly increasing — each value is printed at most
once — but boundaries can be skipped and values above 100 can be
printed. -/
theorem c7_progress (clip : Clip) :
    (∀ x ∈ clip_to_timecodes_printed clip, x % 10 = 0) ∧
    List.Chain' (· < ·) (clip_to_timecodes_printed clip) := by
  rw [clip_to_timecodes_printed, clip_to_timecodes_state]
  apply tcFold_inv clip.num_frames clip.durations ⟨[0], 0, 0, []⟩
  · intro x hx
    simp at hx
  · simp
  · apply pyRound_nonneg
    apply div_nonneg
    · norm_num
    · exact Nat.cast_nonneg _
  · right
    exact ⟨rfl, rfl⟩
  · simp

/-- Helper: moving a cache hit to the front permutes the key list. -/
theorem lruHit_keys_perm (c : TcCache) (k : ℕ) (p : ℕ × List ℚ)
    (h : c.find? (fun q => q.1 == k) = some p) :
    List.Perm (((k, p.2) :: c.eraseP (fun q => q.1 == k)).map Prod.fst)
      (c.map Prod.fst) := by
  induction c with
  | nil => simp at h
  | cons a rest ih =>
    rw [List.find?_cons] at h
    by_cases ha : (a.1 == k) = true
    · rw [ha] at h
      simp only [Option.some.injEq] at h
      subst h
      rw [show List.eraseP (fun q => q.1 == k) (a :: rest) = rest from
        List.eraseP_cons_of_pos ha]
      have hak : a.1 = k := by simpa using ha
      simp [hak]
    · rw [Bool.not_eq_true] at ha
      rw [ha] at h
      rw [show List.eraseP (fun q => q.1 == k) (a :: rest) =
          a :: List.eraseP (fun q => q.1 == k) rest from
        List.eraseP_cons_of_neg (by simp [ha])]
      simp only [List.map_cons]
      exact (List.Perm.swap a.1 k _).trans ((ih h).cons a.1)

/-- Helper: a cache lookup misses exactly when the key is absent. -/
theorem lruFind_none_iff (c : TcCache) (k : ℕ) :
    c.find? (fun q => q.1 == k) = none ↔ k ∉ c.map Prod.fst := by
  rw [List.find?_eq_none]
  constructor
  · intro h hk
    obtain ⟨p, hp, hpk⟩ := List.mem_map.mp hk
    exact h p hp (by simp [hpk])
  · intro h p hp hpk
    exact h (List.mem_map.mpr ⟨p, hp, by simpa using hpk⟩)

/-- Helper: with at most `lruMaxsize` distinct keys in play, each key's
build is triggered at most once (and never again once the key is
cached). -/
theorem buildCountAux_le_one (build : ℕ → List ℚ) (k : ℕ) :
    ∀ (ks : List ℕ) (c : TcCache),
      (c.map Prod.fst).Nodup →
      ((c.map Prod.fst).toFinset ∪ ks.toFinset).card ≤ lruMaxsize →
      buildCountAux build c ks k ≤ (if k ∈ c.map Prod.fst then 0 else 1) := by
  intro ks
  induction ks with
  | nil =>
    intro c _ _
    have h0 : buildCountAux build c [] k = 0 := rfl
    rw [h0]
    split_ifs <;> omega
  | cons k2 ks ih =>
    intro c hnodup hcard
    have hstep : buildCountAux build c (k2 :: ks) k =
        (if k2 = k ∧ (lruCall build c k2).2.2 = true then 1 else 0) +
          buildCountAux build (lruCall build c k2).2.1 ks k := rfl
    rw [hstep]
    cases hfind : c.find? (fun q => q.1 == k2) with
    | some p =>
      have hcall : lruCall build c k2 =
          (p.2, (k2, p.2) :: c.eraseP (fun q => q.1 == k2), false) := by
        rw [lruCall.eq_def, hfind]
      rw [hcall]
      simp only [Bool.false_eq_true, and_false, if_false, Nat.zero_add]
      have hperm := lruHit_keys_perm c k2 p hfind
      have hnodup2 : (((k2, p.2) :: c.eraseP (fun q => q.1 == k2)).map Prod.fst).Nodup :=
        (hperm.nodup_iff).mpr hnodup
      have htfin : (((k2, p.2) :: c.eraseP (fun q => q.1 == k2)).map Prod.fst).toFinset =
          (c.map Prod.fst).toFinset :=
        List.toFinset_eq_of_perm _ _ hperm
      have hcard2 : ((((k2, p.2) :: c.eraseP (fun q => q.1 == k2)).map Prod.fst).toFinset ∪
          ks.toFinset).card ≤ lruMaxsize := by
        refine le_trans (Finset.card_le_card ?_) hcard
        rw [htfin]
        apply Finset.union_subset_union_right
        rw [List.toFinset_cons]
        exact Finset.subset_insert _ _
      have hrec := ih ((k2, p.2) :: c.eraseP (fun q => q.1 == k2)) hnodup2 hcard2
      have hmem : (k ∈ ((k2, p.2) :: c.eraseP (fun q => q.1 == k2)).map Prod.fst) ↔
          k ∈ c.map Prod.fst := hperm.mem_iff
      by_cases hk : k ∈ c.map Prod.fst
      · rw [if_pos hk]
        rw [if_pos (hmem.mpr hk)] at hrec
        exact hrec
      · rw [if_neg hk]
        rw [if_neg (fun hx => hk (hmem.mp hx))] at hrec
        exact hrec
    | none =>
      have hk2 : k2 ∉ c.map Prod.fst := (lruFind_none_iff c k2).mp hfind
      have hclen : c.length + 1 ≤ lruMaxsize := by
        have h1 : (c.map Prod.fst).toFinset.card = c.length := by
          rw [List.toFinset_card_of_nodup hnodup, List.length_map]
        have h2 : insert k2 (c.map Prod.fst).toFinset ⊆
            ((c.map Prod.fst).toFinset ∪ (k2 :: ks).toFinset) := by
          intro x hx
          rcases Finset.mem_insert.mp hx with hx2 | hx2
          · subst hx2
            apply Finset.mem_union_right
            rw [List.toFinset_cons]
            exact Finset.mem_insert_self _ _
          · exact Finset.mem_union_left _ hx2
        have h3 : (insert k2 (c.map Prod.fst).toFinset).card =
            (c.map Prod.fst).toFinset.card + 1 := by
          rw [Finset.card_insert_of_not_mem]
          intro hx
          exact hk2 (List.mem_toFinset.mp hx)
        have h4 := Finset.card_le_card h2
        omega
      have hcall : lruCall build c k2 = (build k2, (k2, build k2) :: c, true) := by
        rw [lruCall.eq_def, hfind]
        dsimp only
        rw [if_neg (by simp only [List.length_cons]; omega)]
      rw [hcall]
      dsimp only
      have hnodup2 : (((k2, build k2) :: c).map Prod.fst).Nodup := by
        simp only [List.map_cons, List.nodup_cons]
        exact ⟨hk2, hnodup⟩
      have hcard2 : ((((k2, build k2) :: c).map Prod.fst).toFinset ∪ ks.toFinset).card ≤
          lruMaxsize := by
        refine le_trans (Finset.card_le_card ?_) hcard
        intro x hx
        rcases Finset.mem_union.mp hx with hx2 | hx2
        · simp only [List.map_cons, List.toFinset_cons] at hx2
          rcases Finset.mem_insert.mp hx2 with hx3 | hx3
          · subst hx3
            apply Finset.mem_union_right
            rw [List.toFinset_cons]
            exact Finset.mem_insert_self _ _
          · exact Finset.mem_union_left _ hx3
        · apply Finset.mem_union_right
          rw [List.toFinset_cons]
          exact Finset.mem_insert_of_mem hx2
      have hrec := ih ((k2, build k2) :: c) hnodup2 hcard2
      by_cases hk2k : k2 = k
      · subst hk2k
        rw [if_neg hk2]
        have hin : k2 ∈ ((k2, build k2) :: c).map Prod.fst := by
          simp
        rw [if_pos hin] at hrec
        have hone : (if k2 = k2 ∧ true = true then 1 else 0) = 1 := by simp
        omega
      · have hcontrib : (if k2 = k ∧ true = true then 1 else 0) = 0 := by
          simp [hk2k]
        rw [hcontrib]
        have hmem : (k ∈ ((k2, build k2) :: c).map Prod.fst) ↔ k ∈ c.map Prod.fst := by
          simp only [List.map_cons, List.mem_cons]
          constructor
          · intro hx
            rcases hx with hx2 | hx2
            · exact absurd hx2.symm hk2k
            · exact hx2
          · intro hx
            exact Or.inr hx
        by_cases hk : k ∈ c.map Prod.fst
        · rw [if_pos hk]
          rw [if_pos (hmem.mpr hk)] at hrec
          omega
        · rw [if_neg hk]
          rw [if_neg (fun hx => hk (hmem.mp hx))] at hrec
          omega

set_option maxRecDepth 8000 in
/-- C8 counterexample: the memoization is an LRU cache with the default
`maxsize = 128`; after calling the builder on 129 distinct clips, the
first clip has been evicted and a further call with it re-runs the frame
iteration, so its table is built twice over the process lifetime. -/
theorem c8_counterexample :
    buildCount (fun i => clip_to_timecodes ⟨i, 0, []⟩) (List.range 129 ++ [0]) 0 = 2
    ∧ ¬ (buildCount (fun i => clip_to_timecodes ⟨i, 0, []⟩) (List.range 129 ++ [0]) 0 ≤ 1) := by
  constructor <;> with_unfolding_all decide

/-- C8 (amended): the timecode table is memoized per clip identity by an
LRU cache bounded at 128 entries: a call whose clip is cached returns the
stored table without building, a call whose clip is absent builds it, and
as long as at most 128 distinct clips are used in the process each clip's
table is built at most once; beyond 128 distinct clips, least-recently-used
entries are evicted and may be rebuilt. -/
theorem c8_build_memoized (clips : ℕ → Clip) :
    (∀ (ks : List ℕ), ks.toFinset.card ≤ lruMaxsize → ∀ k : ℕ,
       buildCount (fun i => clip_to_timecodes (clips i)) ks k ≤ 1)
    ∧ (∀ (c : TcCache) (k : ℕ), c.find? (fun q => q.1 == k) = none →
       (lruCall (fun i => clip_to_timecodes (clips i)) c k).2.2 = true)
    ∧ (∀ (c : TcCache) (k : ℕ) (p : ℕ × List ℚ), c.find? (fun q => q.1 == k) = some p →
       (lruCall (fun i => clip_to_timecodes (clips i)) c k).2.2 = false ∧
       (lruCall (fun i => clip_to_timecodes (clips i)) c k).1 = p.2) := by
  refine ⟨?_, ?_, ?_⟩
  · intro ks hks k
    have h := buildCountAux_le_one (fun i => clip_to_timecodes (clips i)) k ks []
      (by simp) (by simpa using hks)
    simp only [List.map_nil, List.not_mem_nil, if_neg] at h
    simpa [buildCount] using h
  · intro c k h
    rw [lruCall.eq_def, h]
  · intro c k p h
    rw [lruCall.eq_def, h]
    exact ⟨rfl, rfl⟩

/-- C8 witness: repeating the same clip identity twice builds its table at
most once. -/
theorem c8_build_memoized_witness :
    buildCount (fun i => clip_to_timecodes ⟨i, 0, []⟩) [5, 5] 5 ≤ 1 :=
  (c8_build_memoized (fun i => ⟨i, 0, []⟩)).1 [5, 5] (by decide) 5

end Acsuite
